import Mathlib

/-!
Verification development for the conscious-scan ingredient-analysis pipeline.

Text is modelled as `List Char` (`Str`).  JavaScript string/regex operations of
the source (`src/src/services/analysisService.ts` and the Cloudflare-worker
`llmService`) are embedded as executable functions on `Str`.  The regexes of
the source are compiled by hand into deterministic scanners; each scanner's
doc comment records the regex it implements.  JS `\s` is modelled by the ASCII
whitespace characters plus NBSP, `\w` by `[A-Za-z0-9_]` (no Unicode flag is
set in the source), and `toLowerCase` by ASCII lowering plus the one accented
letter appearing in the data (`É`).  External platform builtins (the network
fetch and `JSON.parse`) are parameters of the orchestrator model.
-/

namespace ConsciousScan

abbrev Str := List Char

/-- Convert a Lean string literal to the `List Char` representation. -/
def str (s : String) : Str := s.toList

/-- JS `\s` (ASCII part + NBSP). -/
def wsCh (c : Char) : Bool :=
  c = ' ' || c = '\t' || c = '\n' || c = '\r' || c = '\x0b' || c = '\x0c' || c = '\xa0'

/-- JS `\w` without the Unicode flag: `[A-Za-z0-9_]`. -/
def wordCh (c : Char) : Bool :=
  ('a' ≤ c && c ≤ 'z') || ('A' ≤ c && c ≤ 'Z') || ('0' ≤ c && c ≤ '9') || c = '_'

def digitCh (c : Char) : Bool := '0' ≤ c && c ≤ '9'

/-- `String.prototype.toLowerCase`, restricted to the alphabet of the source. -/
def lowerCh (c : Char) : Char :=
  if 'A' ≤ c && c ≤ 'Z' then Char.ofNat (c.toNat + 32)
  else if c = 'É' then 'é' else c

def lowerL (s : Str) : Str := s.map lowerCh

/-- `String.prototype.trim`. -/
def trimL (s : Str) : Str :=
  ((s.dropWhile wsCh).reverse.dropWhile wsCh).reverse

/-- `String.prototype.indexOf`, as an `Option`. -/
def idxOf (p : Str) : Str → Option Nat
  | [] => if p.isEmpty then some 0 else none
  | c :: t => if p.isPrefixOf (c :: t) then some 0 else (idxOf p t).map (· + 1)

/-- `String.prototype.includes`. -/
def containsSub (s p : Str) : Bool := (idxOf p s).isSome

/-- JS `String.prototype.split` on a set of single separator characters
(keeps empty pieces, like the JS regex-split used in the source). -/
def splitBy (sep : Char → Bool) (s : Str) : List Str :=
  s.foldr (fun c acc =>
    if sep c then [] :: acc
    else match acc with
      | h :: t => (c :: h) :: t
      | [] => [[c]]) [[]]

/-- Decimal digits of a natural number (for `Date.now().toString()` /
template-literal numbers). -/
def natToStr (n : Nat) : Str := Nat.toDigits 10 n

def intToStr (i : Int) : Str :=
  if i < 0 then '-' :: natToStr i.natAbs else natToStr i.natAbs

/-! ### TextClassifier (`isNutritionTable`, lines 7–30) -/

def nutritionKeywords : List Str :=
  [str "nutrition facts", str "nutritional information", str "serving size",
   str "calories", str "total fat", str "saturated fat", str "cholesterol",
   str "sodium", str "carbohydrate", str "protein", str "vitamin",
   str "daily value"]

/-- Number of distinct nutrition keywords occurring in the lowered text. -/
def nutritionKeywordCount (text : Str) : Nat :=
  (nutritionKeywords.filter (fun k => containsSub (lowerL text) k)).length

/-- `isNutritionTable`: 3 or more keyword hits classify as a nutrition table. -/
def isNutritionTable (text : Str) : Bool :=
  3 ≤ nutritionKeywordCount text

inductive Classification where
  | NutritionTable
  | IngredientList
deriving DecidableEq, Repr

/-- `TextClassifier.classify` as described by the spec: the boolean
`isNutritionTable` decides between the two classes. -/
def classify (text : Str) : Classification :=
  if isNutritionTable text then .NutritionTable else .IngredientList

/-! ### NutritionExtractor (`extractNutritionInfo`, lines 35–93)

The three nutrient-line regexes share the prefix `^([\w\s]+?)\s+` (lazy name)
followed by the amount group `(\d+\.?\d*\s*(?:g|mg|mcg|iu))`; for a fixed name
length the remainder of each pattern is deterministic (no two unit
alternatives can match at the same position, and every quantifier is followed
by a character its own class excludes), so the regexes are compiled to
scanners that try name lengths in increasing (lazy) order. -/

structure Nutrient where
  name : Str
  amount : Str
  dailyValue : Option Str
deriving DecidableEq, Repr

structure NutritionInfo where
  servingSize : Option Str
  calories : Option Str
  nutrients : List Nutrient
deriving DecidableEq, Repr

/-- Length matched by the unit alternation `(?:g|mg|mcg|iu)` (case-insensitive),
tried in the regex's left-to-right order. -/
def unitLen (u : Str) : Option Nat :=
  if lowerL (u.take 1) = str "g" then some 1
  else if lowerL (u.take 2) = str "mg" then some 2
  else if lowerL (u.take 3) = str "mcg" then some 3
  else if lowerL (u.take 2) = str "iu" then some 2
  else none

/-- Length matched by the amount group `\d+\.?\d*\s*(?:g|mg|mcg|iu)`. -/
def amountLen (u : Str) : Option Nat :=
  let d1 := u.takeWhile digitCh
  if d1.isEmpty then none else
  let u1 := u.drop d1.length
  let dotLen := if u1.take 1 = ['.'] then 1 else 0
  let u2 := u1.drop dotLen
  let d2 := u2.takeWhile digitCh
  let u3 := u2.drop d2.length
  let w := u3.takeWhile wsCh
  match unitLen (u3.drop w.length) with
  | some k => some (d1.length + dotLen + d2.length + w.length + k)
  | none => none

/-- Match `\s+` then the amount group; returns the amount capture and the
remaining suffix. -/
def tryWsAmount (u : Str) : Option (Str × Str) :=
  let w := u.takeWhile wsCh
  if w.isEmpty then none else
  let u1 := u.drop w.length
  match amountLen u1 with
  | some k => some (u1.take k, u1.drop k)
  | none => none

/-- Lazy scan for `^([\w\s]+?)\s+(amount)` followed by a pattern-specific
tail `after`; name lengths are tried in increasing order, as the lazy
quantifier does. -/
def lazyScan (after : Str → Option β) : Str → Str → Option (Str × Str × β)
  | _, [] => none
  | acc, c :: t =>
    if wordCh c || wsCh c then
      match tryWsAmount t with
      | some (amt, rest) =>
        match after rest with
        | some b => some (acc ++ [c], amt, b)
        | none => lazyScan after (acc ++ [c]) t
      | none => lazyScan after (acc ++ [c]) t
    else none

/-- Tail of pattern 1: `\s*(?:\((\d+)%?\s*(?:dv|daily value)?\))?` — the
optional parenthesised daily-value group. -/
def parenDV (u : Str) : Option Str :=
  let u1 := u.dropWhile wsCh
  match u1 with
  | '(' :: v =>
    let d := v.takeWhile digitCh
    if d.isEmpty then none else
    let v1 := v.drop d.length
    let v2 := if v1.take 1 = ['%'] then v1.drop 1 else v1
    let v3 := v2.dropWhile wsCh
    if v3.take 1 = [')'] then some d
    else if lowerL (v3.take 3) = str "dv)" then some d
    else if lowerL (v3.take 12) = str "daily value)" then some d
    else none
  | _ => none

/-- Pattern 1: `^([\w\s]+?)\s+(\d+\.?\d*\s*(?:g|mg|mcg|iu))\s*(?:\((\d+)%?\s*(?:dv|daily value)?\))?` -/
def nutrientP1 (line : Str) : Option Nutrient :=
  (lazyScan (fun rest => some (parenDV rest)) [] line).map
    (fun r => ⟨trimL r.1, trimL r.2.1, r.2.2.map (· ++ ['%'])⟩)

/-- Pattern 2: `^([\w\s]+?)\s+(\d+\.?\d*\s*(?:g|mg|mcg|iu))\s+(\d+)%?` -/
def nutrientP2 (line : Str) : Option Nutrient :=
  (lazyScan (fun rest =>
      let w := rest.takeWhile wsCh
      if w.isEmpty then none else
      let d := (rest.drop w.length).takeWhile digitCh
      if d.isEmpty then none else some d) [] line).map
    (fun r => ⟨trimL r.1, trimL r.2.1, some (r.2.2 ++ ['%'])⟩)

/-- Pattern 3: `^([\w\s]+?)\s+(\d+\.?\d*\s*(?:g|mg|mcg|iu))$` -/
def nutrientP3 (line : Str) : Option Nutrient :=
  (lazyScan (fun rest => if rest.isEmpty then some () else none) [] line).map
    (fun r => ⟨trimL r.1, trimL r.2.1, none⟩)

/-- The header-artifact check applied to a captured name. -/
def headerName (n : Str) : Bool :=
  containsSub (lowerL n) (str "amount per") || containsSub (lowerL n) (str "% daily value")

/-- The pattern loop of lines 73–89: first matching pattern wins, but a
header-like captured name `continue`s to the next pattern. -/
def pickNutrient : List (Option Nutrient) → Option Nutrient
  | [] => none
  | none :: rest => pickNutrient rest
  | some nut :: rest => if headerName nut.name then pickNutrient rest else some nut

def matchNutrientLine (line : Str) : Option Nutrient :=
  pickNutrient [nutrientP1 line, nutrientP2 line, nutrientP3 line]

/-- Global replace of `/serving size:?/gi` by the empty string. -/
def removeServingSizeAux : Nat → Str → Str
  | 0, s => s
  | _, [] => []
  | fuel + 1, c :: t =>
    if lowerL ((c :: t).take 13) = str "serving size:" then
      removeServingSizeAux fuel ((c :: t).drop 13)
    else if lowerL ((c :: t).take 12) = str "serving size" then
      removeServingSizeAux fuel ((c :: t).drop 12)
    else c :: removeServingSizeAux fuel t

def removeServingSize (s : Str) : Str := removeServingSizeAux s.length s

/-- First match of `/calories\s*:?\s*(\d+)/i` at the head of `u`. -/
def calorieMatchAt (u : Str) : Option Str :=
  if lowerL (u.take 8) = str "calories" then
    let u1 := (u.drop 8).dropWhile wsCh
    let u2 := if u1.take 1 = [':'] then u1.drop 1 else u1
    let d := (u2.dropWhile wsCh).takeWhile digitCh
    if d.isEmpty then none else some d
  else none

/-- Leftmost match of `/calories\s*:?\s*(\d+)/i`. -/
def calorieDigits : Str → Option Str
  | [] => none
  | c :: t => calorieMatchAt (c :: t) <|> calorieDigits t

/-- One line of the `extractNutritionInfo` loop (lines 45–90). -/
def nutritionStep (s : NutritionInfo) (line : Str) : NutritionInfo :=
  let lower := lowerL line
  if containsSub lower (str "serving size") || containsSub lower (str "serving:") then
    { s with servingSize := some (trimL (removeServingSize line)) }
  else if containsSub lower (str "calories") && !containsSub lower (str "from") then
    match calorieDigits line with
    | some d => { s with calories := some d }
    | none => s
  else
    match matchNutrientLine line with
    | some nut => { s with nutrients := s.nutrients ++ [nut] }
    | none => s

def extractNutritionInfo (text : Str) : NutritionInfo :=
  let lines := ((splitBy (· = '\n') text).map trimL).filter (fun l => !l.isEmpty)
  lines.foldl nutritionStep ⟨none, none, []⟩

/-- `formatNutritionForAnalysis` (lines 99–134). -/
def formatNutritionForAnalysis (info : NutritionInfo) : Str :=
  str "Product Nutrition Analysis Request:\n\n" ++
  (match info.servingSize with
   | some ss => str "Serving Size: " ++ ss ++ ['\n']
   | none => []) ++
  (match info.calories with
   | some c => str "Calories: " ++ c ++ str " per serving\n"
   | none => []) ++
  (if info.nutrients.isEmpty then [] else
    str "\nNutritional Content:\n" ++
    info.nutrients.foldl (fun acc n =>
      acc ++ n.name ++ str ": " ++ n.amount ++
      (match n.dailyValue with
       | some dv => str " (" ++ dv ++ str " of daily value)"
       | none => []) ++ ['\n']) [] ++
    str "\n[Note: This is a nutrition facts table. Analyze the nutritional content for health implications, " ++
    str "high sodium/sugar/fat concerns, and provide health advice based on these values. " ++
    str "Treat each nutrient as an analyzable component.]")

/-! ### IngredientExtractor (`extractIngredientsFromText`, lines 140–308) -/

def ingredientMarkers : List Str :=
  [str "ingredients:", str "ingredients ", str "ingredient list:",
   str "ingredient list ", str "contains:", str "made with:", str "composition:",
   str "ingrédients:", str "ingredientes:", str "zutaten:"]

/-- One iteration of the marker loop (lines 176–182): note the source compares
a candidate's index against the stored `index + marker.length` of the current
best, not against its index. -/
def markerStep (text : Str) (st : Option Nat) (m : Str) : Option Nat :=
  match idxOf m text with
  | none => st
  | some i =>
    match st with
    | none => some (i + m.length)
    | some s => if i < s then some (i + m.length) else some s

def findMarkerStart (text : Str) : Option Nat :=
  ingredientMarkers.foldl (markerStep text) none

/-- The word alternation of heuristic pattern 1, in source order. -/
def commonFoodWords : List Str :=
  [str "water", str "sugar", str "salt", str "flour", str "oil", str "milk",
   str "egg", str "wheat", str "corn", str "soy", str "rice"]

def kwSuffixWords : List Str :=
  [str "acid", str "extract", str "powder", str "syrup", str "starch", str "protein"]

/-- JS `.` (no dotall flag): anything but a line terminator. -/
def dotCh (c : Char) : Bool :=
  !(c = '\n' || c = '\r' || c = '\u2028' || c = '\u2029')

/-- Heuristic pattern 1 `/\b(water|…|rice)\b.*[,;]/i` matches at this suffix
(`prevW` records whether the preceding character was a word character, for
the `\b` boundary). -/
def heurP1At (prevW : Bool) (u : Str) : Bool :=
  !prevW &&
  match (commonFoodWords.find? (fun w => w.isPrefixOf u)).map List.length with
  | some len =>
    (match (u.drop len).head? with
     | some c => !wordCh c
     | none => true) &&
    ((u.drop len).takeWhile dotCh).any (fun c => c = ',' || c = ';')
  | none => false

/-- Heuristic pattern 2 `/\b\w+\s+(acid|extract|powder|syrup|starch|protein)\b/i`. -/
def heurP2At (prevW : Bool) (u : Str) : Bool :=
  !prevW &&
  (let w1 := u.takeWhile wordCh
   !w1.isEmpty &&
   (let u1 := u.drop w1.length
    let ws := u1.takeWhile wsCh
    !ws.isEmpty &&
    match (kwSuffixWords.find? (fun w => w.isPrefixOf (u1.drop ws.length))).map List.length with
    | some len =>
      match ((u1.drop ws.length).drop len).head? with
      | some c => !wordCh c
      | none => true
    | none => false))

/-- Heuristic pattern 3 `/\b(natural|artificial)\s+\w+/i`. -/
def heurP3At (prevW : Bool) (u : Str) : Bool :=
  !prevW &&
  (let len := if (str "natural").isPrefixOf u then some 7
              else if (str "artificial").isPrefixOf u then some 10
              else none
   match len with
   | some l =>
     let u1 := u.drop l
     let ws := u1.takeWhile wsCh
     !ws.isEmpty && !((u1.drop ws.length).takeWhile wordCh).isEmpty
   | none => false)

/-- Leftmost position where `matchAt` fires (JS `match.index`). -/
def scanPat (matchAt : Bool → Str → Bool) : Bool → Str → Option Nat
  | _, [] => none
  | prevW, c :: t =>
    if matchAt prevW (c :: t) then some 0
    else (scanPat matchAt (wordCh c) t).map (· + 1)

/-- Lines 185–200: the three heuristic patterns tried in order; the first
pattern with any match supplies its leftmost index. -/
def findPatternStart (text : Str) : Option Nat :=
  scanPat heurP1At false text <|> scanPat heurP2At false text <|>
  scanPat heurP3At false text

/-- Lines 172–205: the candidate ingredient segment of the original text.
Marker and pattern search run on the lowered text; the substring is taken
from the original. -/
def ingredientCandidate (ocr : Str) : Str :=
  match (match findMarkerStart (lowerL ocr) with
         | some s => some s
         | none => findPatternStart (lowerL ocr)) with
  | some s => trimL (ocr.drop s)
  | none => ocr

def stopPhrases : List Str :=
  [str "nutrition facts", str "nutritional information", str "serving size",
   str "servings per", str "amount per serving", str "calories", str "total fat",
   str "saturated fat", str "trans fat", str "cholesterol", str "sodium",
   str "total carb", str "dietary fiber", str "total sugars", str "added sugars",
   str "protein", str "vitamin", str "calcium", str "iron", str "potassium",
   str "% daily value", str "daily value", str "manufactured by",
   str "distributed by", str "best before", str "expiry date", str "use by",
   str "storage", str "keep refrigerated", str "allergen", str "allergy",
   str "warning", str "caution", str "net weight", str "net wt",
   str "product of", str "made in", str "upc", str "barcode", str "lot",
   str "batch"]

/-- `/^\d+\s*(g|mg|mcg|iu|%)\s*$/` (case-sensitive). -/
def pureUnitLine (line : Str) : Bool :=
  let d := line.takeWhile digitCh
  !d.isEmpty &&
  (let u1 := (line.drop d.length).dropWhile wsCh
   let ul := if u1.take 1 = ['g'] then some 1
             else if u1.take 2 = str "mg" then some 2
             else if u1.take 3 = str "mcg" then some 3
             else if u1.take 2 = str "iu" then some 2
             else if u1.take 1 = ['%'] then some 1
             else none
   match ul with
   | some k => (u1.drop k).all wsCh
   | none => false)

/-- `/^\d+\s*calories?\s*$/i`. -/
def pureCaloriesLine (line : Str) : Bool :=
  let d := line.takeWhile digitCh
  !d.isEmpty &&
  (let u1 := (line.drop d.length).dropWhile wsCh
   if lowerL (u1.take 7) = str "calorie" then
     let u2 := u1.drop 7
     let u3 := if lowerL (u2.take 1) = str "s" then u2.drop 1 else u2
     u3.all wsCh
   else false)

/-- `/^\d+\/\d+\s*cup/` (case-sensitive). -/
def fracCupLine (line : Str) : Bool :=
  let d := line.takeWhile digitCh
  !d.isEmpty &&
  (let u1 := line.drop d.length
   u1.take 1 = ['/'] &&
   (let d2 := (u1.drop 1).takeWhile digitCh
    !d2.isEmpty &&
    (str "cup").isPrefixOf (((u1.drop 1).drop d2.length).dropWhile wsCh)))

/-- `/^\d+[\d\s%.,]*$/`. -/
def mostlyNumLine (line : Str) : Bool :=
  match line with
  | [] => false
  | c :: t =>
    digitCh c && t.all (fun d => digitCh d || wsCh d || d = '%' || d = '.' || d = ',')

/-- More than 30% of the characters are `[^\w\s]` (the float factor `0.3`
agrees with the exact rational comparison at every integer count). -/
def punctHeavy (line : Str) : Bool :=
  10 * (line.filter (fun c => !(wordCh c || wsCh c))).length > 3 * line.length

/-- Lines 256–284: which trimmed lines survive the filter. -/
def keepLine (line : Str) : Bool :=
  !(stopPhrases.any (fun p => containsSub (lowerL line) p)) &&
  !pureUnitLine line && !pureCaloriesLine line && !fracCupLine line &&
  !(line.length < 3) && !mostlyNumLine line && !punctHeavy line

/-- Generic global regex replace: `f` reports the (positive) match length at a
position, scanning resumes after each match as `String.replace(…/g)` does. -/
def replaceGAux (f : Str → Option Nat) (rep : Str) : Nat → Str → Str
  | 0, s => s
  | _, [] => []
  | fuel + 1, c :: t =>
    match f (c :: t) with
    | some (Nat.succ k) => rep ++ replaceGAux f rep fuel (t.drop k)
    | _ => c :: replaceGAux f rep fuel t

def replaceG (f : Str → Option Nat) (rep : Str) (s : Str) : Str :=
  replaceGAux f rep s.length s

/-- Match length of `\s+` at this position. -/
def wsRunM (u : Str) : Option Nat :=
  let w := u.takeWhile wsCh
  if w.isEmpty then none else some w.length

/-- Match length of `\s+\d+%\s*` at this position. -/
def pctTokM (u : Str) : Option Nat :=
  let w := u.takeWhile wsCh
  if w.isEmpty then none else
  let d := (u.drop w.length).takeWhile digitCh
  if d.isEmpty then none else
  let u1 := u.drop (w.length + d.length)
  if u1.take 1 = ['%'] then
    some (w.length + d.length + 1 + ((u1.drop 1).takeWhile wsCh).length)
  else none

/-- Match length of `[,;]\s*[,;]` at this position. -/
def sepPairM (u : Str) : Option Nat :=
  match u with
  | c :: t =>
    if c = ',' || c = ';' then
      let w := t.takeWhile wsCh
      let u1 := t.drop w.length
      if u1.take 1 = [','] || u1.take 1 = [';'] then some (1 + w.length + 1) else none
    else none
  | [] => none

/-- Match length of `\s*,\s*` (respectively `\s*;\s*`) at this position. -/
def sepNormM (sep : Char) (u : Str) : Option Nat :=
  let w := u.takeWhile wsCh
  let u1 := u.drop w.length
  if u1.take 1 = [sep] then
    some (w.length + 1 + ((u1.drop 1).takeWhile wsCh).length)
  else none

/-- `.replace(/^\d+\s+/, '')`. -/
def stripLeadingNum (s : Str) : Str :=
  let d := s.takeWhile digitCh
  if d.isEmpty then s else
  let w := (s.drop d.length).takeWhile wsCh
  if w.isEmpty then s else (s.drop d.length).drop w.length

/-- `.replace(/[,;]\s*$/, '')`. -/
def stripTrailingSep : Str → Str
  | [] => []
  | c :: t =>
    if (c = ',' || c = ';') && t.all wsCh then [] else c :: stripTrailingSep t

/-- Lines 287–305: the cleanup substitution chain. -/
def cleanupChain (s : Str) : Str :=
  let r1 := replaceG wsRunM (str " ") s
  let r2 := stripLeadingNum r1
  let r3 := replaceG pctTokM (str " ") r2
  let r4 := r3.filter (fun c => !(c = '|' || c = '\\'))
  let r5 := replaceG sepPairM (str ",") r4
  let r6 := replaceG (sepNormM ',') (str ", ") r5
  let r7 := replaceG (sepNormM ';') (str "; ") r6
  trimL (stripTrailingSep r7)

/-- `extractIngredientsFromText` (lines 140–308). -/
def extractIngredientsFromText (ocr : Str) : Str :=
  if (trimL ocr).isEmpty then [] else
  if isNutritionTable ocr then formatNutritionForAnalysis (extractNutritionInfo ocr) else
  let ingredientText := ingredientCandidate ocr
  let cleanLines :=
    ((splitBy (· = '\n') ingredientText).map trimL).filter
      (fun l => !l.isEmpty && keepLine l)
  cleanupChain (trimL (List.intercalate [' '] cleanLines))

/-- Token filter of `parseIngredients` (lines 321–333). -/
def parseTokenOK (i : Str) : Bool :=
  !(i.length < 2 || 100 < i.length) &&
  (let lower := lowerL i
   !(match lower with
     | [] => false
     | c :: t => digitCh c && t.all (fun d => digitCh d || wsCh d || d = '%')) &&
   !containsSub lower (str "serving") && !containsSub lower (str "calorie") &&
   !containsSub lower (str "daily value"))

/-- `parseIngredients` (lines 313–335). -/
def parseIngredients (text : Str) : List Str :=
  if (extractIngredientsFromText text).isEmpty then [] else
  ((((splitBy (fun c => c = ',' || c = ';' || c = '•' || c = '·')
      (extractIngredientsFromText text)).map trimL).filter parseTokenOK).take 50)

/-! ### Data model (`src/types`, worker `llmService`) -/

structure Ingredient where
  name : Str
  category : Str
  description : Str
  healthRating : Str
  concerns : List Str
  benefits : List Str
  isVegan : Bool
  isNatural : Bool
deriving DecidableEq, Repr

structure Product where
  id : Str
  name : Str
  brand : Str
  category : Str
  imageUri : Option Str
  barcode : Option Str
  ingredients : List Ingredient
  rawIngredientText : Str
  overallScore : Int
  letterGrade : Str
  personalizedWarnings : List Str
  personalizedAdvice : List Str
  scannedAt : Nat
deriving DecidableEq, Repr

structure UserProfile where
  allergies : List Str := []
  sensitivities : List Str := []
  dietaryPreferences : List Str := []
  priorities : List Str := []
  avoidList : List Str := []
  seekList : List Str := []
deriving DecidableEq, Repr

structure ScanData where
  name : Option Str := none
  brand : Option Str := none
  category : Option Str := none
  barcode : Option Str := none
  imageUri : Option Str := none
  ingredientText : Str := []
deriving DecidableEq, Repr

/-! ### LLM service (worker version, `src/unnamed/part_008` second file)

`JSON.parse` is a platform builtin, modelled as a parameter
`parse : Str → Option RawAnalysis`; the network fetch is a parameter
`oracle : Nat → Except Unit Str` giving the outcome of the n-th call
(the orchestrator only ever performs call 0).  A `RawAnalysis` is the
parsed response object: every field may be absent (`JSON.parse` of a
partial object), matching the optional-chaining / `||`-defaulting reads
of the source. -/

structure LLMIngredient where
  name : Str
  category : Str
  description : Str
  healthRating : Str
  concerns : List Str
  benefits : List Str
  isVegan : Bool
  isNatural : Bool
  tags : Option (List Str) := none
deriving DecidableEq, Repr

structure LLMIssue where
  ingredient : Str
  tags : List Str
  severity : Str
  confidence : ℚ
  explanation : Str
  advice : Str
deriving DecidableEq, Repr

structure ScoreBreakdown where
  allergy_risk : Int
  toxicological_concerns : Int
  nutrition_or_usage : Int
  user_priority_alignment : Int
deriving DecidableEq, Repr

structure SummaryBlock where
  main_takeaway : Str
  recommended_next_steps : List Str
deriving DecidableEq, Repr

structure RawProduct where
  name : Option Str := none
  category : Option Str := none
deriving DecidableEq, Repr

/-- The object obtained from a successful `JSON.parse` of the worker body. -/
structure RawAnalysis where
  product : Option RawProduct := none
  ingredients : Option (List LLMIngredient) := none
  issues : Option (List LLMIssue) := none
  overall_rating : Option Int := none
  letter_grade : Option Str := none
  score_breakdown : Option ScoreBreakdown := none
  personalized_warnings : Option (List Str) := none
  personalized_advice : Option (List Str) := none
  summary : Option SummaryBlock := none
  confidence : Option ℚ := none
  disclaimer : Option Str := none
deriving DecidableEq, Repr

structure LLMAnalysisResponse where
  productName : Str
  productCategory : Str
  ingredients : List LLMIngredient
  issues : List LLMIssue
  overall_rating : Int
  letter_grade : Str
  score_breakdown : ScoreBreakdown
  personalized_warnings : List Str
  personalized_advice : List Str
  summary : SummaryBlock
  confidence : ℚ
  disclaimer : Str
deriving DecidableEq, Repr

/-- JS `x || d` for an optional string field: absent and `""` are falsy. -/
def orStr (o : Option Str) (d : Str) : Str :=
  match o with
  | some s => if s.isEmpty then d else s
  | none => d

/-- JS `x || d` for an optional number field: absent and `0` are falsy. -/
def orInt (o : Option Int) (d : Int) : Int :=
  match o with
  | some v => if v = 0 then d else v
  | none => d

def orRat (o : Option ℚ) (d : ℚ) : ℚ :=
  match o with
  | some v => if v = 0 then d else v
  | none => d

/-- The `completeAnalysis` defaulting step of `analyzeIngredientsWithLLM`
(worker version; claim source lines 481–507 of the concatenated file).
Arrays and objects are truthy in JS even when empty, so list/object fields
use plain absence-defaulting, while numbers and strings default on `0`/`""`
as well. -/
def completeAnalysis (productName productCategory : Str) (analysis : RawAnalysis) :
    LLMAnalysisResponse where
  productName := orStr (analysis.product.bind (·.name)) productName
  productCategory := orStr (analysis.product.bind (·.category)) productCategory
  ingredients := analysis.ingredients.getD []
  issues := analysis.issues.getD []
  overall_rating := orInt analysis.overall_rating 50
  letter_grade := orStr analysis.letter_grade (str "C")
  score_breakdown := analysis.score_breakdown.getD ⟨50, 50, 50, 50⟩
  personalized_warnings := analysis.personalized_warnings.getD []
  personalized_advice :=
    analysis.personalized_advice.getD [str "Analysis incomplete - please try scanning again"]
  summary :=
    analysis.summary.getD
      ⟨str "Analysis was incomplete", [str "Try scanning again with better lighting"]⟩
  confidence := orRat analysis.confidence (1 / 2)
  disclaimer :=
    orStr analysis.disclaimer (str "This analysis was incomplete due to processing limitations.")

/-- Leftmost, end-anchored match of `/,\s*"[^"]*":?\s*$/` (the trailing
incomplete key/value pair): a comma, whitespace, a complete quoted string —
whose closing quote is necessarily the next quote — an optional colon, and
trailing whitespace to the end. -/
def kvTailAt (u : Str) : Bool :=
  match u with
  | ',' :: t =>
    (match (t.dropWhile wsCh) with
     | '"' :: v =>
       let mid := v.takeWhile (· ≠ '"')
       (match v.drop mid.length with
        | '"' :: rest =>
          let rest1 := if rest.take 1 = [':'] then rest.drop 1 else rest
          rest1.all wsCh
        | _ => false)
     | _ => false)
  | _ => false

/-- `.replace(/,\s*"[^"]*":?\s*$/, '')`: cut at the leftmost position where
the end-anchored pattern matches. -/
def stripIncompleteKV : Str → Str
  | [] => []
  | c :: t => if kvTailAt (c :: t) then [] else c :: stripIncompleteKV t

/-- `.replace(/,\s*$/, '')`. -/
def stripTrailingComma : Str → Str
  | [] => []
  | c :: t => if c = ',' && t.all wsCh then [] else c :: stripTrailingComma t

def countCh (c : Char) (s : Str) : Nat := (s.filter (· = c)).length

/-- The bounded JSON-repair pass of `analyzeIngredientsWithLLM` (claim source
lines 442–477 of the concatenated file): trim, strip a trailing incomplete
key/value pair, strip a trailing comma, then append the closing brackets and
braces still open according to a raw character count. -/
def fixJson (responseText : Str) : Str :=
  let t := stripTrailingComma (stripIncompleteKV (trimL responseText))
  t ++ List.replicate (countCh '[' t - countCh ']' t) ']'
    ++ List.replicate (countCh '\x7b' t - countCh '\x7d' t) '\x7d'

/-- The parse step with its single repair retry; the second component records
the strings handed to `JSON.parse`, in order. -/
def parseWithRepair (parse : Str → Option RawAnalysis) (body : Str) :
    Option RawAnalysis × List Str :=
  match parse body with
  | some a => (some a, [body])
  | none =>
    match parse (fixJson body) with
    | some a => (some a, [body, fixJson body])
    | none => (none, [body, fixJson body])

/-- `analyzeIngredientsWithLLM` (worker version): one oracle call, empty-body
check, parse with one repair retry, then field defaulting; every failure is a
thrown error, modelled as `Except.error`. -/
def analyzeIngredientsWithLLM (productName productCategory : Str)
    (oracle : Nat → Except Unit Str) (parse : Str → Option RawAnalysis) :
    Except Unit LLMAnalysisResponse :=
  match oracle 0 with
  | .error _ => .error ()
  | .ok body =>
    if (trimL body).isEmpty then .error ()
    else
      match (parseWithRepair parse body).1 with
      | some a => .ok (completeAnalysis productName productCategory a)
      | none => .error ()

/-! ### AnalysisOrchestrator (`createProductFromScan`, lines 340–445) -/

/-- `createProductFallback` (lines 405–445) — the HeuristicAnalyzer of the
spec.  `now` stands for `Date.now()`. -/
def createProductFallback (scanData : ScanData) (_profile : UserProfile)
    (now : Nat) : Product where
  id := natToStr now
  name := scanData.name.getD (str "Unknown Product")
  brand := scanData.brand.getD (str "Unknown Brand")
  category := scanData.category.getD (str "Uncategorized")
  imageUri := scanData.imageUri
  barcode := scanData.barcode
  ingredients :=
    (parseIngredients scanData.ingredientText).map fun n =>
      { name :=
          match n with
          | [] => []
          | c :: t =>
            (if 'a' ≤ c && c ≤ 'z' then Char.ofNat (c.toNat - 32) else c) :: t
        category := str "Unknown"
        description := str "Analysis unavailable - please try again later."
        healthRating := str "caution"
        concerns := [str "Unable to analyze - LLM service unavailable"]
        benefits := []
        isVegan := true
        isNatural := false }
  rawIngredientText := scanData.ingredientText
  overallScore := 50
  letterGrade := str "C"
  personalizedWarnings := [str "Analysis incomplete - AI service temporarily unavailable"]
  personalizedAdvice := [str "Try scanning again when connected to the internet"]
  scannedAt := now

/-- `createProductFromScan` (lines 340–400): clean the text, call the LLM
service, map a success into a `Product`, and catch every failure into the
fallback.  The function is total: the `try`/`catch` of the source leaves no
raising path to the caller. -/
def createProductFromScan (scanData : ScanData) (profile : UserProfile)
    (oracle : Nat → Except Unit Str) (parse : Str → Option RawAnalysis)
    (now : Nat) : Product :=
  match analyzeIngredientsWithLLM (orStr scanData.name (str "Unknown Product"))
      (orStr scanData.category (str "Uncategorized")) oracle parse with
  | .ok a =>
    { id := natToStr now
      name := orStr (some a.productName) (orStr scanData.name (str "Unknown Product"))
      brand := scanData.brand.getD (str "Unknown Brand")
      category := orStr (some a.productCategory) (orStr scanData.category (str "Uncategorized"))
      imageUri := scanData.imageUri
      barcode := scanData.barcode
      ingredients := a.ingredients.map fun i =>
        ⟨i.name, i.category, i.description, i.healthRating, i.concerns,
         i.benefits, i.isVegan, i.isNatural⟩
      rawIngredientText :=
        if (extractIngredientsFromText scanData.ingredientText).isEmpty then
          scanData.ingredientText
        else extractIngredientsFromText scanData.ingredientText
      overallScore := a.overall_rating
      letterGrade := a.letter_grade
      personalizedWarnings := a.personalized_warnings
      personalizedAdvice := a.personalized_advice
      scannedAt := now }
  | .error _ => createProductFallback scanData profile now

/-! ### ComparisonEngine (`compareProducts`, lines 450–505) -/

structure DifferingIngredient where
  ingredient : Str
  presentIn : List Str
  rating : Str
deriving DecidableEq, Repr

structure ComparisonResult where
  products : List Product
  rankedOrder : List Str
  summary : Str
  differingIngredients : List DifferingIngredient
deriving DecidableEq, Repr

/-- `[...products].sort((a, b) => b.overallScore - a.overallScore)`:
JS `Array.prototype.sort` is stable, so the source computes the unique
stable descending order, embedded here as a stable insertion sort. -/
def insertDesc (p : Product) : List Product → List Product
  | [] => [p]
  | q :: t =>
    if p.overallScore < q.overallScore then q :: insertDesc p t else p :: q :: t

def sortDesc : List Product → List Product
  | [] => []
  | p :: t => insertDesc p (sortDesc t)

/-- The `Map` update of lines 468–478: value order is first-insertion order of
the key, product names are deduplicated per key. -/
def updAssoc : List (Str × List Str) → Str → Str → List (Str × List Str)
  | [], ing, pr => [(ing, [pr])]
  | (k, v) :: t, ing, pr =>
    if k = ing then
      (if pr ∈ v then (k, v) :: t else (k, v ++ [pr]) :: t)
    else (k, v) :: updAssoc t ing pr

def buildIngredientMap (products : List Product) : List (Str × List Str) :=
  products.foldl
    (fun m p => p.ingredients.foldl (fun m ing => updAssoc m ing.name p.name) m) []

/-- `compareProducts` (lines 450–505). -/
def compareProducts (products : List Product) (_profile : UserProfile) :
    ComparisonResult :=
  match products with
  | [] =>
    { products := [], rankedOrder := [], summary := str "No products to compare",
      differingIngredients := [] }
  | _ =>
    let ranked := sortDesc products
    let differing :=
      ((buildIngredientMap products).filter
        (fun e => e.2.length < products.length)).map fun e =>
        let prod := products.find? (fun p => p.ingredients.any (fun i => i.name = e.1))
        let ing := prod.bind (fun p => p.ingredients.find? (fun i => i.name = e.1))
        ⟨e.1, e.2, orStr (ing.map (·.healthRating)) (str "caution")⟩
    let best := ranked.headD (createProductFallback {} {} 0)
    { products := products
      rankedOrder := ranked.map (·.id)
      summary :=
        best.name ++ str " ranks highest with a score of " ++
        intToStr best.overallScore ++ str ". It has " ++
        natToStr best.personalizedWarnings.length ++
        str " warnings based on your profile."
      differingIngredients := differing }

/-! ### Helper lemmas -/

theorem orInt_ne_zero (o : Option Int) (d : Int) (hd : d ≠ 0) : orInt o d ≠ 0 := by
  cases o with
  | none => simpa [orInt]
  | some v =>
    by_cases hv : v = 0 <;> simp [orInt, hv, hd]

theorem orRat_ne_zero (o : Option ℚ) (d : ℚ) (hd : d ≠ 0) : orRat o d ≠ 0 := by
  cases o with
  | none => simpa [orRat]
  | some v =>
    by_cases hv : v = 0 <;> simp [orRat, hv, hd]

theorem completeAnalysis_rating_ne_zero (pn pc : Str) (raw : RawAnalysis) :
    (completeAnalysis pn pc raw).overall_rating ≠ 0 :=
  orInt_ne_zero _ _ (by decide)

theorem analyze_ok_rating_ne_zero (pn pc : Str) (oracle : Nat → Except Unit Str)
    (parse : Str → Option RawAnalysis) (a : LLMAnalysisResponse)
    (h : analyzeIngredientsWithLLM pn pc oracle parse = .ok a) :
    a.overall_rating ≠ 0 := by
  unfold analyzeIngredientsWithLLM at h
  cases h0 : oracle 0 with
  | error e => rw [h0] at h; cases h
  | ok body =>
    rw [h0] at h
    by_cases he : (trimL body).isEmpty
    · simp [he] at h
    · simp [he] at h
      cases hp : (parseWithRepair parse body).1 with
      | none => rw [hp] at h; cases h
      | some raw =>
        rw [hp] at h
        cases h
        exact completeAnalysis_rating_ne_zero _ _ _

/-! ### Claim theorems -/

/-- C5: `TextClassifier.classify` is total and deterministic — a total Lean
function of the text alone; with at least 3 distinct matched nutrition
keywords it returns `NutritionTable`, with at most 2 it returns
`IngredientList`, and the empty string classifies as `IngredientList`. -/
theorem C5_classifier_threshold (text : Str) :
    (3 ≤ nutritionKeywordCount text → classify text = .NutritionTable) ∧
    (nutritionKeywordCount text ≤ 2 → classify text = .IngredientList) ∧
    classify [] = .IngredientList := by
  refine ⟨fun h => ?_, fun h => ?_, by decide⟩
  · have hb : isNutritionTable text = true := by
      simpa [isNutritionTable] using h
    simp [classify, hb]
  · have hb : isNutritionTable text = false := by
      simp [isNutritionTable]
      omega
    simp [classify, hb]

theorem C5_witness :
    (3 ≤ nutritionKeywordCount
        (str "Nutrition Facts\nServing Size 1 cup\nCalories 120\nTotal Fat 2g") ∧
      classify (str "Nutrition Facts\nServing Size 1 cup\nCalories 120\nTotal Fat 2g") =
        .NutritionTable) ∧
    (nutritionKeywordCount (str "water, salt") ≤ 2 ∧
      classify (str "water, salt") = .IngredientList) :=
  ⟨⟨by decide, (C5_classifier_threshold _).1 (by decide)⟩,
   ⟨by decide, (C5_classifier_threshold _).2.1 (by decide)⟩⟩

/-- C2: evaluation of `extractNutritionInfo` at the claim's two example lines.
On `"Sodium 170mg 8%"` the source emits the nutrient WITHOUT a daily-value
percentage: the first pattern's optional `(\((\d+)%?…\))?` group matches
empty before the second pattern — whose own comment names exactly this line —
can run, so `dailyValue` is `undefined` rather than the documented `"8%"`.
On `"Protein 3g"` the emitted record matches the claim. -/
theorem C2_nutrient_line_shapes :
    extractNutritionInfo (str "Sodium 170mg 8%") =
      ⟨none, none, [⟨str "Sodium", str "170mg", none⟩]⟩ ∧
    extractNutritionInfo (str "Protein 3g") =
      ⟨none, none, [⟨str "Protein", str "3g", none⟩]⟩ :=
  ⟨by decide, by decide⟩

/-- C10: the `completeAnalysis` defaulting step treats falsy-but-present
values like absent ones: `overall_rating = 0` becomes 50, `confidence = 0`
becomes 0.5, `letter_grade = ""` becomes `"C"`; consequently the completed
response never carries `overall_rating = 0` or `confidence = 0`, and the
Product built by the orchestrator never has `overallScore = 0`. -/
theorem C10_falsy_defaulting (pn pc : Str) (raw : RawAnalysis) :
    (raw.overall_rating = some 0 → (completeAnalysis pn pc raw).overall_rating = 50) ∧
    (raw.confidence = some 0 → (completeAnalysis pn pc raw).confidence = 1 / 2) ∧
    (raw.letter_grade = some [] → (completeAnalysis pn pc raw).letter_grade = str "C") ∧
    (completeAnalysis pn pc raw).overall_rating ≠ 0 ∧
    (completeAnalysis pn pc raw).confidence ≠ 0 ∧
    ∀ (sd : ScanData) (prof : UserProfile) oracle parse now,
      (createProductFromScan sd prof oracle parse now).overallScore ≠ 0 := by
  refine ⟨fun h => ?_, fun h => ?_, fun h => ?_,
    completeAnalysis_rating_ne_zero pn pc raw,
    orRat_ne_zero _ _ (by norm_num), ?_⟩
  · simp [completeAnalysis, h, orInt]
  · simp [completeAnalysis, h, orRat]
  · simp [completeAnalysis, h, orStr]
  · intro sd prof oracle parse now
    unfold createProductFromScan
    cases h : analyzeIngredientsWithLLM (orStr sd.name (str "Unknown Product"))
        (orStr sd.category (str "Uncategorized")) oracle parse with
    | ok a =>
      simpa using analyze_ok_rating_ne_zero _ _ _ _ _ h
    | error e =>
      simp [createProductFallback]

theorem C10_witness :
    (completeAnalysis [] []
        { overall_rating := some 0, confidence := some 0,
          letter_grade := some [] }).overall_rating = 50 ∧
    (completeAnalysis [] []
        { overall_rating := some 0, confidence := some 0,
          letter_grade := some [] }).confidence = 1 / 2 ∧
    (completeAnalysis [] []
        { overall_rating := some 0, confidence := some 0,
          letter_grade := some [] }).letter_grade = str "C" :=
  ⟨(C10_falsy_defaulting [] [] _).1 rfl,
   (C10_falsy_defaulting [] [] _).2.1 rfl,
   (C10_falsy_defaulting [] [] _).2.2.1 rfl⟩

/-- C6 counterexample: on the claim's example input the fourth token keeps
its trailing period (`"Natural Flavor."`), so even after case normalisation
the result is not `["water","sugar","salt","natural flavor"]`. -/
theorem C6_counterexample :
    (parseIngredients (str "Ingredients: Water, Sugar, Salt, Natural Flavor.")).map lowerL ≠
      [str "water", str "sugar", str "salt", str "natural flavor"] := by
  decide

/-- C6 (amended): on the example input `parse` returns
`["Water","Sugar","Salt","Natural Flavor."]` — original casing kept and the
trailing period retained, since the cleanup strips only trailing `,`/`;` —
and for every input the result has at most 50 tokens, none shorter than 2 or
longer than 100 characters. -/
theorem C6_parse_example_and_bounds :
    parseIngredients (str "Ingredients: Water, Sugar, Salt, Natural Flavor.") =
      [str "Water", str "Sugar", str "Salt", str "Natural Flavor."] ∧
    ∀ text : Str, (parseIngredients text).length ≤ 50 ∧
      ∀ tok ∈ parseIngredients text, 2 ≤ tok.length ∧ tok.length ≤ 100 := by
  refine ⟨by decide, fun text => ⟨?_, fun tok htok => ?_⟩⟩
  · unfold parseIngredients
    split
    · simp
    · rw [List.length_take]
      exact min_le_left _ _
  · unfold parseIngredients at htok
    split at htok
    · simp at htok
    · have h1 := List.mem_of_mem_take htok
      have h2 := (List.mem_filter.mp h1).2
      unfold parseTokenOK at h2
      simp only [Bool.and_eq_true, Bool.not_eq_true'] at h2
      have h3 := h2.1
      simp at h3
      omega

theorem C6_witness :
    2 ≤ (str "Water").length ∧ (str "Water").length ≤ 100 :=
  (C6_parse_example_and_bounds.2
    (str "Ingredients: Water, Sugar, Salt, Natural Flavor.")).2
    (str "Water") (by decide)

/-- C4 counterexample: `extractIngredientsFromText` is not idempotent — when
the extracted segment itself still contains a marker, a second application
strips it again: the input `"ingredients: water ingredients: salt"` cleans to
`"water ingredients: salt"`, whose re-extraction is `"salt"`. -/
theorem C4_counterexample :
    extractIngredientsFromText
        (extractIngredientsFromText (str "ingredients: water ingredients: salt")) ≠
      extractIngredientsFromText (str "ingredients: water ingredients: salt") := by
  decide

/-- C4 (amended): `extract` is not idempotent in general, but outputs that
begin directly with ingredient content are fixed points: the cleaned text of
`"ingredients: water, salt"` is `"water, salt"`, and re-running `extract` on
it changes nothing. -/
theorem C4_fixed_point_example :
    extractIngredientsFromText (str "ingredients: water, salt") = str "water, salt" ∧
    extractIngredientsFromText
        (extractIngredientsFromText (str "ingredients: water, salt")) =
      extractIngredientsFromText (str "ingredients: water, salt") :=
  ⟨by decide, by decide⟩

/-- C1 counterexample: the claim fails when the oracle's response parses to
an object with an out-of-range `overall_rating` or a foreign `letter_grade`
(realised by `JSON.parse` on `'{"overall_rating":150,"letter_grade":"Z"}'`):
the falsy-only defaulting passes `150` and `"Z"` straight into the Product,
so `overallScore ∈ [0,100]` and `letterGrade ∈ {A,B,C,D,F}` are violated. -/
theorem C1_counterexample :
    (createProductFromScan {} {} (fun _ => Except.ok (str "x"))
        (fun _ => some { overall_rating := some 150, letter_grade := some (str "Z") })
        0).overallScore = 150 ∧
    ¬((createProductFromScan {} {} (fun _ => Except.ok (str "x"))
        (fun _ => some { overall_rating := some 150, letter_grade := some (str "Z") })
        0).overallScore ≤ 100) ∧
    (createProductFromScan {} {} (fun _ => Except.ok (str "x"))
        (fun _ => some { overall_rating := some 150, letter_grade := some (str "Z") })
        0).letterGrade = str "Z" := by
  refine ⟨by decide, by decide, by decide⟩

/-- C1 (amended): `createProductFromScan` is a total function — every failure
of the oracle call or of the (repaired) parse lands in the fallback Product —
and the returned Product has `overallScore ∈ [0,100]` and `letterGrade ∈
{A,B,C,D,F}` provided every successfully parsed oracle response carries an
`overall_rating` inside `[0,100]` (or absent/0, which default to 50) and a
`letter_grade` in that set (or absent/empty, which default to `"C"`);
out-of-range parsed values are passed through unchecked. -/
theorem C1_analyze_total_bounds (sd : ScanData) (prof : UserProfile)
    (oracle : Nat → Except Unit Str) (parse : Str → Option RawAnalysis) (now : Nat)
    (hr : ∀ body raw, oracle 0 = .ok body → (parseWithRepair parse body).1 = some raw →
        (∀ v, raw.overall_rating = some v → 0 ≤ v ∧ v ≤ 100) ∧
        (∀ g, raw.letter_grade = some g →
          g = [] ∨ g ∈ [str "A", str "B", str "C", str "D", str "F"])) :
    0 ≤ (createProductFromScan sd prof oracle parse now).overallScore ∧
    (createProductFromScan sd prof oracle parse now).overallScore ≤ 100 ∧
    (createProductFromScan sd prof oracle parse now).letterGrade ∈
      [str "A", str "B", str "C", str "D", str "F"] := by
  unfold createProductFromScan
  cases h : analyzeIngredientsWithLLM (orStr sd.name (str "Unknown Product"))
      (orStr sd.category (str "Uncategorized")) oracle parse with
  | error e =>
    refine ⟨by simp [createProductFallback], by simp [createProductFallback], ?_⟩
    simp only [createProductFallback]
    decide
  | ok a =>
    unfold analyzeIngredientsWithLLM at h
    cases h0 : oracle 0 with
    | error e => rw [h0] at h; cases h
    | ok body =>
      rw [h0] at h
      by_cases he : (trimL body).isEmpty
      · simp [he] at h
      · simp [he] at h
        cases hp : (parseWithRepair parse body).1 with
        | none => rw [hp] at h; cases h
        | some raw =>
          rw [hp] at h
          cases h
          have hb := hr body raw h0 hp
          refine ⟨?_, ?_, ?_⟩
          · cases hv : raw.overall_rating with
            | none => simp [completeAnalysis, orInt, hv]
            | some v =>
              by_cases h0v : v = 0
              · simp [completeAnalysis, orInt, hv, h0v]
              · simpa [completeAnalysis, orInt, hv, h0v] using (hb.1 v hv).1
          · cases hv : raw.overall_rating with
            | none => simp [completeAnalysis, orInt, hv]
            | some v =>
              by_cases h0v : v = 0
              · simp [completeAnalysis, orInt, hv, h0v]
              · simpa [completeAnalysis, orInt, hv, h0v] using (hb.1 v hv).2
          · cases hg : raw.letter_grade with
            | none =>
              simp only [completeAnalysis, orStr, hg]
              decide
            | some g =>
              by_cases hge : g.isEmpty
              · simp only [completeAnalysis, orStr, hg, hge, if_true]
                decide
              · rcases hb.2 g hg with h1 | h1
                · subst h1; simp at hge
                · simp [completeAnalysis, orStr, hg, hge]
                  simpa using h1

theorem C1_witness :
    0 ≤ (createProductFromScan {} {} (fun _ => .error ()) (fun _ => none) 0).overallScore ∧
    (createProductFromScan {} {} (fun _ => .error ()) (fun _ => none) 0).overallScore ≤ 100 ∧
    (createProductFromScan {} {} (fun _ => .error ()) (fun _ => none) 0).letterGrade ∈
      [str "A", str "B", str "C", str "D", str "F"] :=
  C1_analyze_total_bounds {} {} (fun _ => .error ()) (fun _ => none) 0
    (fun _ _ h => nomatch h)

/-- C7: the JSON-repair budget.  A first failing parse is retried exactly
once, on exactly `fixJson body` — the trim / strip-incomplete-pair /
strip-trailing-comma text followed by precisely the number of `']'` and `'}'`
characters needed to close the brackets and braces counted open in it (the
resulting counts are `max open close`); if the retry also fails the
orchestrator returns the fallback Product, and the oracle outcome is
consulted only at call 0 — the network call is never retried. -/
theorem C7_repair_retry_once (parse : Str → Option RawAnalysis) (body : Str) :
    (∀ a, parse body = some a → parseWithRepair parse body = (some a, [body])) ∧
    (parse body = none →
      (parseWithRepair parse body).2 = [body, fixJson body] ∧
      (parseWithRepair parse body).1 = parse (fixJson body)) ∧
    (fixJson body =
      stripTrailingComma (stripIncompleteKV (trimL body)) ++
        List.replicate
          (countCh '[' (stripTrailingComma (stripIncompleteKV (trimL body))) -
            countCh ']' (stripTrailingComma (stripIncompleteKV (trimL body)))) ']' ++
        List.replicate
          (countCh '\x7b' (stripTrailingComma (stripIncompleteKV (trimL body))) -
            countCh '\x7d' (stripTrailingComma (stripIncompleteKV (trimL body)))) '\x7d' ∧
      countCh ']' (fixJson body) =
        max (countCh '[' (stripTrailingComma (stripIncompleteKV (trimL body))))
          (countCh ']' (stripTrailingComma (stripIncompleteKV (trimL body)))) ∧
      countCh '\x7d' (fixJson body) =
        max (countCh '\x7b' (stripTrailingComma (stripIncompleteKV (trimL body))))
          (countCh '\x7d' (stripTrailingComma (stripIncompleteKV (trimL body))))) ∧
    (∀ (sd : ScanData) (prof : UserProfile) oracle now,
      oracle 0 = Except.ok body → parse body = none → parse (fixJson body) = none →
      createProductFromScan sd prof oracle parse now = createProductFallback sd prof now) ∧
    (∀ (sd : ScanData) (prof : UserProfile) (o o' : Nat → Except Unit Str) now,
      o 0 = o' 0 →
      createProductFromScan sd prof o parse now = createProductFromScan sd prof o' parse now) := by
  have hcnt : ∀ (c : Char) (a b : Str), countCh c (a ++ b) = countCh c a + countCh c b := by
    intro c a b
    simp [countCh, List.filter_append]
  have hrep1 : ∀ (c : Char) (n : Nat), countCh c (List.replicate n c) = n := by
    intro c n
    induction n with
    | zero => simp [countCh]
    | succ k ih => simp only [countCh, List.replicate_succ, List.filter_cons] at ih ⊢; simp [ih]
  have hrep2 : ∀ (c d : Char), c ≠ d → ∀ n : Nat, countCh c (List.replicate n d) = 0 := by
    intro c d h n
    have h' : ¬(d = c) := fun e => h e.symm
    induction n with
    | zero => simp [countCh]
    | succ k ih => simp only [countCh, List.replicate_succ, List.filter_cons] at ih ⊢; simp [ih, h']
  refine ⟨fun a ha => ?_, fun hn => ?_, ⟨rfl, ?_, ?_⟩, fun sd prof oracle now h0 h1 h2 => ?_,
    fun sd prof o o' now h00 => ?_⟩
  · simp [parseWithRepair, ha]
  · cases h2 : parse (fixJson body) <;> simp [parseWithRepair, hn, h2]
  · rw [show fixJson body =
        stripTrailingComma (stripIncompleteKV (trimL body)) ++
          List.replicate _ ']' ++ List.replicate _ '\x7d' from rfl]
    rw [hcnt, hcnt, hrep1, hrep2 ']' '\x7d' (by decide)]
    omega
  · rw [show fixJson body =
        stripTrailingComma (stripIncompleteKV (trimL body)) ++
          List.replicate _ ']' ++ List.replicate _ '\x7d' from rfl]
    rw [hcnt, hcnt, hrep2 '\x7d' ']' (by decide), hrep1]
    omega
  · unfold createProductFromScan analyzeIngredientsWithLLM
    rw [h0]
    by_cases he : (trimL body).isEmpty
    · simp [he]
    · simp [he, parseWithRepair, h1, h2]
  · unfold createProductFromScan analyzeIngredientsWithLLM
    rw [h00]

theorem C7_witness :
    (parseWithRepair (fun _ => none) (str "\x7b\"product\":\x7b")).2 =
      [str "\x7b\"product\":\x7b", fixJson (str "\x7b\"product\":\x7b")] ∧
    (parseWithRepair (fun _ => none) (str "\x7b\"product\":\x7b")).1 =
      (fun (_ : Str) => (none : Option RawAnalysis)) (fixJson (str "\x7b\"product\":\x7b")) :=
  (C7_repair_retry_once (fun _ => none) (str "\x7b\"product\":\x7b")).2.1 rfl

/-! ### C3 machinery: the marker loop selects the earliest marker

The loop of lines 176–182 compares each candidate index against the stored
`index + marker.length` of the current best rather than against its index, so
it is correct only because no occurrence of one marker can begin strictly
inside an occurrence of another: no proper suffix of any marker is
prefix-compatible with any other marker, a fact checked by `decide` over the
concrete 10-element list. -/

theorem isPrefixOf_iff {p : Str} : ∀ {s : Str}, p.isPrefixOf s = true ↔ ∃ t, s = p ++ t := by
  induction p with
  | nil => intro s; simp [List.isPrefixOf]
  | cons a p ih =>
    intro s
    cases s with
    | nil =>
      simp only [List.isPrefixOf]
      constructor
      · intro h; cases h
      · rintro ⟨u, hu⟩; cases hu
    | cons b t =>
      simp only [List.isPrefixOf, Bool.and_eq_true, beq_iff_eq, ih, List.cons_append]
      constructor
      · rintro ⟨rfl, u, rfl⟩
        exact ⟨u, rfl⟩
      · rintro ⟨u, hu⟩
        injection hu with h1 h2
        exact ⟨h1.symm, u, h2⟩

theorem isPrefixOf_drop {p s : Str} (d : Nat) (h : p.isPrefixOf s = true) (hd : d ≤ p.length) :
    (p.drop d).isPrefixOf (s.drop d) = true := by
  rcases isPrefixOf_iff.mp h with ⟨t, rfl⟩
  rw [List.drop_append_of_le_length hd]
  exact isPrefixOf_iff.mpr ⟨t, rfl⟩

theorem isPrefixOf_total {p : Str} :
    ∀ {q s : Str}, p.isPrefixOf s = true → q.isPrefixOf s = true →
      p.isPrefixOf q = true ∨ q.isPrefixOf p = true := by
  induction p with
  | nil => intro q s _ _; left; simp [List.isPrefixOf]
  | cons a p ih =>
    intro q s hp hq
    cases q with
    | nil => right; simp [List.isPrefixOf]
    | cons b q =>
      cases s with
      | nil => simp [List.isPrefixOf] at hp
      | cons c s =>
        simp only [List.isPrefixOf, Bool.and_eq_true, beq_iff_eq] at hp hq ⊢
        rcases hp with ⟨rfl, hp2⟩
        rcases hq with ⟨rfl, hq2⟩
        rcases ih hp2 hq2 with h | h
        · left; exact ⟨rfl, h⟩
        · right; exact ⟨rfl, h⟩

theorem idxOf_matches {p : Str} : ∀ {s : Str} {i : Nat}, idxOf p s = some i →
    p.isPrefixOf (s.drop i) = true := by
  intro s
  induction s with
  | nil =>
    intro i h
    unfold idxOf at h
    by_cases hp : p.isEmpty
    · rw [if_pos hp] at h
      cases h
      cases p with
      | nil => simp [List.isPrefixOf]
      | cons a p' => simp [List.isEmpty] at hp
    · rw [if_neg hp] at h; cases h
  | cons c t ih =>
    intro i h
    unfold idxOf at h
    by_cases hpre : p.isPrefixOf (c :: t) = true
    · rw [if_pos hpre] at h
      cases h
      simpa using hpre
    · rw [if_neg hpre] at h
      cases hi : idxOf p t with
      | none => rw [hi] at h; cases h
      | some j =>
        rw [hi] at h
        simp only [Option.map_some'] at h
        cases h
        simpa using ih hi

theorem idxOf_least {p : Str} : ∀ {s : Str} {i : Nat}, idxOf p s = some i →
    ∀ j < i, p.isPrefixOf (s.drop j) = false := by
  intro s
  induction s with
  | nil =>
    intro i h j hj
    unfold idxOf at h
    by_cases hp : p.isEmpty
    · rw [if_pos hp] at h; cases h; omega
    · rw [if_neg hp] at h; cases h
  | cons c t ih =>
    intro i h j hj
    unfold idxOf at h
    by_cases hpre : p.isPrefixOf (c :: t) = true
    · rw [if_pos hpre] at h; cases h; omega
    · rw [if_neg hpre] at h
      cases hi : idxOf p t with
      | none => rw [hi] at h; cases h
      | some k =>
        rw [hi] at h
        simp only [Option.map_some'] at h
        cases h
        cases j with
        | zero => exact Bool.eq_false_iff.mpr hpre
        | succ j' => simpa using ih hi j' (by omega)

theorem idxOf_none {p : Str} : ∀ {s : Str}, idxOf p s = none →
    ∀ j, p.isPrefixOf (s.drop j) = false := by
  intro s
  induction s with
  | nil =>
    intro h j
    unfold idxOf at h
    by_cases hp : p.isEmpty
    · rw [if_pos hp] at h; cases h
    · rw [if_neg hp] at h
      cases p with
      | nil => simp [List.isEmpty] at hp
      | cons a p' => simp [List.isPrefixOf]
  | cons c t ih =>
    intro h j
    unfold idxOf at h
    by_cases hpre : p.isPrefixOf (c :: t) = true
    · rw [if_pos hpre] at h; cases h
    · rw [if_neg hpre] at h
      cases hi : idxOf p t with
      | some k => rw [hi] at h; simp at h
      | none =>
        cases j with
        | zero => exact Bool.eq_false_iff.mpr hpre
        | succ j' => simpa using ih hi j'

/-- Prefix-compatibility of `B` with the suffix of `A` at offset `d`; this is
what two overlapping occurrences in a common text would force. -/
def overlapOK (A B : Str) (d : Nat) : Bool :=
  (A.drop d).isPrefixOf B || B.isPrefixOf (A.drop d)

theorem markers_no_overlap :
    (ingredientMarkers.all fun A => ingredientMarkers.all fun B =>
      decide (A = B) || (List.range A.length).all fun d => !(overlapOK A B d)) = true := by
  decide

theorem marker_overlap_false {A B : Str} (hA : A ∈ ingredientMarkers)
    (hB : B ∈ ingredientMarkers) (hne : A ≠ B) {d : Nat} (hd : d < A.length) :
    overlapOK A B d = false := by
  have h := markers_no_overlap
  rw [List.all_eq_true] at h
  have h1 := h A hA
  rw [List.all_eq_true] at h1
  have h2 := h1 B hB
  rw [Bool.or_eq_true] at h2
  rcases h2 with h2 | h2
  · exact absurd (of_decide_eq_true h2) hne
  · rw [List.all_eq_true] at h2
    simpa using h2 d (List.mem_range.mpr hd)

/-- Two distinct markers cannot match a common text at positions closer than
the first marker's length. -/
theorem no_double_match {text A B : Str} (hA : A ∈ ingredientMarkers)
    (hB : B ∈ ingredientMarkers) (hne : A ≠ B) {i j : Nat}
    (hAi : A.isPrefixOf (text.drop i) = true) (hBj : B.isPrefixOf (text.drop j) = true)
    (hij : i ≤ j) (hlt : j < i + A.length) : False := by
  have hd : j - i < A.length := by omega
  have h1 : (A.drop (j - i)).isPrefixOf ((text.drop i).drop (j - i)) = true :=
    isPrefixOf_drop _ hAi (by omega)
  rw [List.drop_drop] at h1
  rw [show i + (j - i) = j by omega] at h1
  have hov := marker_overlap_false hA hB hne hd
  rw [overlapOK, Bool.or_eq_false_iff] at hov
  rcases isPrefixOf_total h1 hBj with h | h
  · rw [hov.1] at h; cases h
  · rw [hov.2] at h; cases h

/-- Loop invariant of the marker fold (lines 173–182): the state is `none`
when no processed marker occurs, and otherwise stores `i + |m|` for the
processed marker `m` with the least first-occurrence index `i`. -/
def MarkerInv (text : Str) (processed : List Str) (st : Option Nat) : Prop :=
  (st = none ∧ ∀ m ∈ processed, idxOf m text = none) ∨
  (∃ m i, m ∈ processed ∧ idxOf m text = some i ∧ st = some (i + m.length) ∧
    ∀ m' ∈ processed, ∀ j, idxOf m' text = some j → i ≤ j)

theorem markers_ne_nil : ∀ m ∈ ingredientMarkers, m ≠ [] := by decide

theorem markerStep_inv {text : Str} {processed : List Str} {st : Option Nat} {B : Str}
    (hB : B ∈ ingredientMarkers) (hsub : ∀ m ∈ processed, m ∈ ingredientMarkers)
    (h : MarkerInv text processed st) :
    MarkerInv text (processed ++ [B]) (markerStep text st B) := by
  unfold markerStep
  cases hidx : idxOf B text with
  | none =>
    dsimp only
    rcases h with ⟨h1, h2⟩ | ⟨m, i, hm, hmi, hst, hmin⟩
    · left
      subst h1
      refine ⟨rfl, fun m hm => ?_⟩
      rcases List.mem_append.mp hm with hmem | hmem
      · exact h2 m hmem
      · simp at hmem; subst hmem; exact hidx
    · right
      subst hst
      refine ⟨m, i, List.mem_append.mpr (Or.inl hm), hmi, rfl, fun m' hm' j hj => ?_⟩
      rcases List.mem_append.mp hm' with hmem | hmem
      · exact hmin m' hmem j hj
      · simp at hmem; subst hmem; rw [hidx] at hj; cases hj
  | some jB =>
    rcases h with ⟨h1, h2⟩ | ⟨m, i, hm, hmi, hst, hmin⟩
    · subst h1
      dsimp only
      right
      refine ⟨B, jB, List.mem_append.mpr (Or.inr (by simp)), hidx, rfl, ?_⟩
      intro m' hm' j hj
      rcases List.mem_append.mp hm' with hmem | hmem
      · rw [h2 m' hmem] at hj; cases hj
      · simp at hmem; subst hmem
        rw [hidx] at hj
        injection hj with hj'
        omega
    · subst hst
      dsimp only
      by_cases hcmp : jB < i + m.length
      · rw [if_pos hcmp]
        by_cases hBm : B = m
        · subst hBm
          have hij' : i = jB := Option.some.inj (hmi.symm.trans hidx)
          subst hij'
          right
          refine ⟨B, i, List.mem_append.mpr (Or.inl hm), hmi, rfl, fun m' hm' j hj => ?_⟩
          rcases List.mem_append.mp hm' with hmem | hmem
          · exact hmin m' hmem j hj
          · simp at hmem; subst hmem
            have := Option.some.inj (hmi.symm.trans hj)
            omega
        · by_cases hij : jB < i
          · right
            refine ⟨B, jB, List.mem_append.mpr (Or.inr (by simp)), hidx, rfl,
              fun m' hm' j hj => ?_⟩
            rcases List.mem_append.mp hm' with hmem | hmem
            · have := hmin m' hmem j hj; omega
            · simp at hmem; subst hmem
              rw [hidx] at hj
              injection hj with hj'
              omega
          · exact absurd
              (no_double_match (hsub m hm) hB (fun e => hBm e.symm)
                (idxOf_matches hmi) (idxOf_matches hidx) (by omega) hcmp)
              (fun h => h)
      · rw [if_neg hcmp]
        right
        refine ⟨m, i, List.mem_append.mpr (Or.inl hm), hmi, rfl, fun m' hm' j hj => ?_⟩
        rcases List.mem_append.mp hm' with hmem | hmem
        · exact hmin m' hmem j hj
        · simp at hmem; subst hmem
          rw [hidx] at hj
          injection hj with hj'
          have hml : 0 < m.length := by
            have := markers_ne_nil m (hsub m hm)
            cases m with
            | nil => simp at this
            | cons a t => simp
          omega

theorem foldl_markerStep_inv (text : Str) :
    ∀ (rest processed : List Str) (st : Option Nat),
      (∀ m ∈ processed, m ∈ ingredientMarkers) →
      (∀ m ∈ rest, m ∈ ingredientMarkers) →
      MarkerInv text processed st →
      MarkerInv text (processed ++ rest) (rest.foldl (markerStep text) st) := by
  intro rest
  induction rest with
  | nil =>
    intro processed st _ _ h3
    simpa using h3
  | cons B rest ih =>
    intro processed st h1 h2 h3
    have hB : B ∈ ingredientMarkers := h2 B (by simp)
    have step := markerStep_inv hB h1 h3
    have hrec := ih (processed ++ [B]) (markerStep text st B)
      (fun m hm => (List.mem_append.mp hm).elim (h1 m)
        (fun hmem => by simp at hmem; subst hmem; exact hB))
      (fun m hm => h2 m (by simp [hm]))
      step
    simpa [List.append_assoc] using hrec

/-- C3: whenever some marker occurs in the (lowered) text, `extract`'s
candidate segment is the text immediately after the marker whose occurrence
position is earliest — the marker loop never selects a later-positioned
marker. -/
theorem C3_earliest_marker_wins (ocr : Str)
    (hocc : ∃ m ∈ ingredientMarkers, (idxOf m (lowerL ocr)).isSome) :
    ∃ m i, m ∈ ingredientMarkers ∧ idxOf m (lowerL ocr) = some i ∧
      (∀ m' ∈ ingredientMarkers, ∀ j, idxOf m' (lowerL ocr) = some j → i ≤ j) ∧
      findMarkerStart (lowerL ocr) = some (i + m.length) ∧
      ingredientCandidate ocr = trimL (ocr.drop (i + m.length)) := by
  have hinv := foldl_markerStep_inv (lowerL ocr) ingredientMarkers [] none
    (by simp) (fun m hm => hm) (Or.inl ⟨rfl, by simp⟩)
  rw [List.nil_append] at hinv
  rcases hinv with ⟨h1, h2⟩ | ⟨m, i, hm, hmi, hst, hmin⟩
  · rcases hocc with ⟨m, hm, hsome⟩
    rw [h2 m hm] at hsome
    simp at hsome
  · have hfind : findMarkerStart (lowerL ocr) = some (i + m.length) := hst
    refine ⟨m, i, hm, hmi, hmin, hfind, ?_⟩
    unfold ingredientCandidate
    rw [hfind]

theorem C3_witness :
    ∃ m i, m ∈ ingredientMarkers ∧ idxOf m (lowerL (str "Contains: sugar")) = some i ∧
      (∀ m' ∈ ingredientMarkers, ∀ j,
        idxOf m' (lowerL (str "Contains: sugar")) = some j → i ≤ j) ∧
      findMarkerStart (lowerL (str "Contains: sugar")) = some (i + m.length) ∧
      ingredientCandidate (str "Contains: sugar") =
        trimL ((str "Contains: sugar").drop (i + m.length)) :=
  C3_earliest_marker_wins (str "Contains: sugar")
    ⟨str "contains:", by decide, by decide⟩

/-! ### C9 machinery: `rankedOrder` is the unique stable descending order

The spec's description — descending by `overallScore`, ties in input order —
is formalised as sorting the index-tagged product list by the total strict
order `lexBefore` (higher score first, lower original index first on equal
scores); `sortSpec`/`insertRank` implement that description directly and are
compared against the source's comparator sort `sortDesc`. -/

def enumFromP (n : Nat) : List Product → List (Nat × Product)
  | [] => []
  | p :: t => (n, p) :: enumFromP (n + 1) t

/-- The spec's ranking order on index-tagged products: strictly higher score,
or equal score and earlier input position. -/
def lexBefore (x y : Nat × Product) : Prop :=
  y.2.overallScore < x.2.overallScore ∨
  (x.2.overallScore = y.2.overallScore ∧ x.1 < y.1)

instance (x y : Nat × Product) : Decidable (lexBefore x y) := by
  unfold lexBefore; infer_instance

def insertRank (x : Nat × Product) : List (Nat × Product) → List (Nat × Product)
  | [] => [x]
  | y :: t => if lexBefore y x then y :: insertRank x t else x :: y :: t

/-- Insertion sort by the spec's order `lexBefore`. -/
def sortSpec : List (Nat × Product) → List (Nat × Product)
  | [] => []
  | x :: t => insertRank x (sortSpec t)

theorem mem_insertRank {x z : Nat × Product} :
    ∀ {l}, z ∈ insertRank x l → z = x ∨ z ∈ l := by
  intro l
  induction l with
  | nil =>
    intro h
    simp [insertRank] at h
    exact Or.inl h
  | cons y t ih =>
    intro h
    unfold insertRank at h
    split at h
    · rcases List.mem_cons.mp h with rfl | h2
      · exact Or.inr (List.mem_cons_self _ _)
      · rcases ih h2 with h3 | h3
        · exact Or.inl h3
        · exact Or.inr (List.mem_cons_of_mem _ h3)
    · rcases List.mem_cons.mp h with rfl | h2
      · exact Or.inl rfl
      · exact Or.inr h2

theorem insertRank_perm (x : Nat × Product) :
    ∀ l, List.Perm (insertRank x l) (x :: l) := by
  intro l
  induction l with
  | nil => simp [insertRank]
  | cons y t ih =>
    unfold insertRank
    split
    · exact (ih.cons y).trans (List.Perm.swap x y t)
    · exact List.Perm.refl _

theorem sortSpec_perm : ∀ l, List.Perm (sortSpec l) l := by
  intro l
  induction l with
  | nil => simp [sortSpec]
  | cons x t ih => exact (insertRank_perm x (sortSpec t)).trans (ih.cons x)

theorem lexBefore_trans {x y z : Nat × Product} (h1 : lexBefore x y)
    (h2 : lexBefore y z) : lexBefore x z := by
  unfold lexBefore at h1 h2 ⊢
  omega

theorem lexBefore_total {x y : Nat × Product} (hne : x.1 ≠ y.1)
    (h : ¬lexBefore y x) : lexBefore x y := by
  unfold lexBefore at h ⊢
  omega

theorem pairwise_insertRank {x : Nat × Product} :
    ∀ {l}, l.Pairwise lexBefore → (∀ y ∈ l, y.1 ≠ x.1) →
      (insertRank x l).Pairwise lexBefore := by
  intro l
  induction l with
  | nil => intro _ _; simp [insertRank]
  | cons y t ih =>
    intro hp hne
    rcases List.pairwise_cons.mp hp with ⟨hy, ht⟩
    unfold insertRank
    split
    · rename_i hcond
      refine List.pairwise_cons.mpr
        ⟨?_, ih ht (fun z hz => hne z (List.mem_cons_of_mem y hz))⟩
      intro z hz
      rcases mem_insertRank hz with rfl | hz'
      · exact hcond
      · exact hy z hz'
    · rename_i hcond
      have hxy : lexBefore x y :=
        lexBefore_total (Ne.symm (hne y (List.mem_cons_self _ _))) hcond
      refine List.pairwise_cons.mpr ⟨?_, hp⟩
      intro z hz
      rcases List.mem_cons.mp hz with rfl | hz'
      · exact hxy
      · exact lexBefore_trans hxy (hy z hz')

theorem pairwise_sortSpec :
    ∀ {l}, l.Pairwise (fun a b => a.1 ≠ b.1) → (sortSpec l).Pairwise lexBefore := by
  intro l
  induction l with
  | nil => intro _; simp [sortSpec]
  | cons x t ih =>
    intro hp
    rcases List.pairwise_cons.mp hp with ⟨hx, ht⟩
    refine pairwise_insertRank (ih ht) ?_
    intro y hy
    have hmem : y ∈ t := (sortSpec_perm t).mem_iff.mp hy
    exact fun e => hx y hmem e.symm

theorem enumFromP_fst_ge : ∀ (l : List Product) (n : Nat) (y : Nat × Product),
    y ∈ enumFromP n l → n ≤ y.1 := by
  intro l
  induction l with
  | nil => intro n y h; simp [enumFromP] at h
  | cons p t ih =>
    intro n y h
    rcases List.mem_cons.mp h with rfl | h2
    · simp
    · have := ih (n + 1) y h2
      omega

theorem enumFromP_pairwise_lt :
    ∀ (l : List Product) (n : Nat), (enumFromP n l).Pairwise (fun a b => a.1 < b.1) := by
  intro l
  induction l with
  | nil => intro n; simp [enumFromP]
  | cons p t ih =>
    intro n
    refine List.pairwise_cons.mpr ⟨?_, ih (n + 1)⟩
    intro y hy
    have := enumFromP_fst_ge t (n + 1) y hy
    simp only
    omega

theorem enumFromP_pairwise_ne (l : List Product) (n : Nat) :
    (enumFromP n l).Pairwise (fun a b => a.1 ≠ b.1) :=
  (enumFromP_pairwise_lt l n).imp (fun h => Nat.ne_of_lt h)

theorem insertDesc_cons (p q : Product) (t : List Product) :
    insertDesc p (q :: t) =
      if p.overallScore < q.overallScore then q :: insertDesc p t
      else p :: q :: t := rfl

theorem map_snd_insertRank {x : Nat × Product} :
    ∀ {l}, (∀ y ∈ l, x.1 < y.1) →
      (insertRank x l).map Prod.snd = insertDesc x.2 (l.map Prod.snd) := by
  intro l
  induction l with
  | nil => intro _; simp [insertRank, insertDesc]
  | cons y t ih =>
    intro hlt
    have hidx : x.1 < y.1 := hlt y (List.mem_cons_self _ _)
    have hcond : lexBefore y x ↔ x.2.overallScore < y.2.overallScore := by
      unfold lexBefore
      constructor
      · rintro (h | ⟨h1, h2⟩)
        · exact h
        · omega
      · exact fun h => Or.inl h
    unfold insertRank
    by_cases hc : x.2.overallScore < y.2.overallScore
    · rw [if_pos (hcond.mpr hc)]
      simp only [List.map_cons, insertDesc_cons, if_pos hc]
      rw [ih (fun z hz => hlt z (List.mem_cons_of_mem y hz))]
    · rw [if_neg (fun h => hc (hcond.mp h))]
      simp only [List.map_cons, insertDesc_cons, if_neg hc]

theorem sortDesc_eq_sortSpec :
    ∀ (ps : List Product) (n : Nat),
      sortDesc ps = (sortSpec (enumFromP n ps)).map Prod.snd := by
  intro ps
  induction ps with
  | nil => intro n; simp [sortDesc, enumFromP, sortSpec]
  | cons p t ih =>
    intro n
    show insertDesc p (sortDesc t) =
      (insertRank (n, p) (sortSpec (enumFromP (n + 1) t))).map Prod.snd
    have hlt : ∀ y ∈ sortSpec (enumFromP (n + 1) t), (n, p).1 < y.1 := by
      intro y hy
      have hmem := (sortSpec_perm _).mem_iff.mp hy
      have := enumFromP_fst_ge t (n + 1) y hmem
      show n < y.1
      omega
    rw [map_snd_insertRank hlt, ih (n + 1)]

/-- C9: `rankedOrder` is exactly the ids of the products sorted by the spec's
stable descending order — the index-tagged list sorted by `lexBefore`
(descending score, ties by original position), which is a permutation of the
tagged input and strictly sorted by that total order, hence unique. -/
theorem C9_ranked_stable_sort (ps : List Product) (prof : UserProfile) :
    (compareProducts ps prof).rankedOrder =
      (sortSpec (enumFromP 0 ps)).map (fun e => e.2.id) ∧
    (sortSpec (enumFromP 0 ps)).Perm (enumFromP 0 ps) ∧
    (sortSpec (enumFromP 0 ps)).Pairwise lexBefore := by
  refine ⟨?_, sortSpec_perm _, pairwise_sortSpec (enumFromP_pairwise_ne ps 0)⟩
  cases ps with
  | nil => simp [compareProducts, enumFromP, sortSpec]
  | cons p t =>
    show (sortDesc (p :: t)).map (·.id) = _
    rw [sortDesc_eq_sortSpec (p :: t) 0, List.map_map]
    rfl

/-! ### C8 machinery: `differingIngredients` and presence counting

`buildIngredientMap` is an insertion-ordered association list mirroring the
JS `Map`; for a fixed key its value evolves like a single fold over the
products (`optStep`), whose length equals the number of products containing
the key — provided product names are pairwise distinct, because the source
deduplicates presence by `product.name`. -/

def lookupV : List (Str × List Str) → Str → Option (List Str)
  | [], _ => none
  | (k, v) :: t, key => if k = key then some v else lookupV t key

/-- What one touch of a key by product `pr` does to its value. -/
def pushName (o : Option (List Str)) (pr : Str) : List Str :=
  match o with
  | none => [pr]
  | some v => if pr ∈ v then v else v ++ [pr]

/-- The per-product effect on the value of key `k`. -/
def optStep (k : Str) (o : Option (List Str)) (p : Product) : Option (List Str) :=
  if p.ingredients.any (fun i => i.name = k) then some (pushName o p.name) else o

def vlen : Option (List Str) → Nat
  | none => 0
  | some v => v.length

theorem lookupV_updAssoc_same :
    ∀ (m : List (Str × List Str)) (k pr : Str),
      lookupV (updAssoc m k pr) k = some (pushName (lookupV m k) pr) := by
  intro m
  induction m with
  | nil => intro k pr; simp [updAssoc, lookupV, pushName]
  | cons f t ih =>
    obtain ⟨k0, v0⟩ := f
    intro k pr
    unfold updAssoc
    by_cases h : k0 = k
    · subst h
      by_cases hpr : pr ∈ v0
      · rw [if_pos rfl, if_pos hpr]
        simp [lookupV, pushName, hpr]
      · rw [if_pos rfl, if_neg hpr]
        simp [lookupV, pushName, hpr]
    · rw [if_neg h]
      simp [lookupV, h, ih]

theorem lookupV_updAssoc_other :
    ∀ (m : List (Str × List Str)) (k pr key : Str), k ≠ key →
      lookupV (updAssoc m k pr) key = lookupV m key := by
  intro m
  induction m with
  | nil => intro k pr key h; simp [updAssoc, lookupV, h]
  | cons f t ih =>
    obtain ⟨k0, v0⟩ := f
    intro k pr key h
    unfold updAssoc
    by_cases h0 : k0 = k
    · subst h0
      by_cases hpr : pr ∈ v0
      · rw [if_pos rfl, if_pos hpr]
      · rw [if_pos rfl, if_neg hpr]
        simp [lookupV, h]
    · rw [if_neg h0]
      by_cases h1 : k0 = key
      · simp [lookupV, h1]
      · simp [lookupV, h1, ih k pr key h]

theorem ingFold_lookup (pn k : Str) :
    ∀ (ings : List Ingredient) (m : List (Str × List Str)),
      lookupV (ings.foldl (fun m ing => updAssoc m ing.name pn) m) k =
        if ings.any (fun i => i.name = k) then some (pushName (lookupV m k) pn)
        else lookupV m k := by
  intro ings
  induction ings with
  | nil => intro m; simp
  | cons ing t ih =>
    intro m
    show lookupV (t.foldl _ (updAssoc m ing.name pn)) k = _
    by_cases h : ing.name = k
    · subst h
      have hpush : pushName (some (pushName (lookupV m ing.name) pn)) pn =
          pushName (lookupV m ing.name) pn := by
        cases hL : lookupV m ing.name with
        | none => simp [pushName]
        | some v =>
          by_cases hv : pn ∈ v
          · simp [pushName, hv]
          · simp [pushName, hv]
      have hhead : ((ing :: t).any (fun i => i.name = ing.name)) = true := by simp
      rw [ih, lookupV_updAssoc_same, if_pos hhead]
      by_cases ht : (t.any (fun i => i.name = ing.name)) = true
      · rw [if_pos ht, hpush]
      · rw [if_neg ht]
    · have hhead : ((ing :: t).any (fun i => i.name = k)) =
          (t.any (fun i => i.name = k)) := by simp [h]
      rw [ih, lookupV_updAssoc_other m ing.name pn k h, hhead]

theorem buildMap_lookup_fold (k : Str) :
    ∀ (ps : List Product) (m : List (Str × List Str)),
      lookupV (ps.foldl
        (fun m p => p.ingredients.foldl (fun m ing => updAssoc m ing.name p.name) m) m) k =
        ps.foldl (optStep k) (lookupV m k) := by
  intro ps
  induction ps with
  | nil => intro m; simp
  | cons p t ih =>
    intro m
    show lookupV (t.foldl _ (p.ingredients.foldl _ m)) k = _
    rw [ih]
    show _ = t.foldl (optStep k) (optStep k (lookupV m k) p)
    congr 1
    exact ingFold_lookup p.name k p.ingredients m

theorem optFold_length (k : Str) :
    ∀ (ps : List Product) (acc : Option (List Str)),
      (ps.map (fun p => p.name)).Nodup →
      (∀ p ∈ ps, ∀ v, acc = some v → p.name ∉ v) →
      vlen (ps.foldl (optStep k) acc) =
        vlen acc +
          (ps.filter (fun p => p.ingredients.any (fun i => i.name = k))).length := by
  intro ps
  induction ps with
  | nil => intro acc _ _; simp
  | cons p t ih =>
    intro acc hnd hdis
    rw [List.map_cons, List.nodup_cons] at hnd
    obtain ⟨hp, hnd'⟩ := hnd
    show vlen (t.foldl (optStep k) (optStep k acc p)) = _
    by_cases hc : (p.ingredients.any (fun i => i.name = k)) = true
    · have hstep : optStep k acc p = some (pushName acc p.name) := by
        unfold optStep; rw [if_pos hc]
      have hlen : vlen (some (pushName acc p.name)) = vlen acc + 1 := by
        cases acc with
        | none => simp [pushName, vlen]
        | some v =>
          have hnm : p.name ∉ v := hdis p (List.mem_cons_self _ _) v rfl
          simp [pushName, vlen, hnm]
      have hdis2 : ∀ q ∈ t, ∀ v, some (pushName acc p.name) = some v → q.name ∉ v := by
        intro q hq v hv hqin
        have hv' : v = pushName acc p.name := (Option.some.inj hv).symm
        subst hv'
        have hqp : q.name ≠ p.name := by
          intro e
          exact hp (e ▸ List.mem_map_of_mem (fun p => p.name) hq)
        cases acc with
        | none =>
          simp [pushName] at hqin
          exact hqp hqin
        | some w =>
          have hqw : q.name ∉ w := hdis q (List.mem_cons_of_mem _ hq) w rfl
          by_cases hpw : p.name ∈ w
          · simp [pushName, hpw] at hqin
            exact hqw hqin
          · simp [pushName, hpw] at hqin
            rcases hqin with h | h
            · exact hqw h
            · exact hqp h
      rw [hstep, ih (some (pushName acc p.name)) hnd' hdis2, hlen]
      simp [List.filter_cons, hc]
      omega
    · have hstep : optStep k acc p = acc := by
        unfold optStep; rw [if_neg hc]
      rw [hstep, ih acc hnd' (fun q hq => hdis q (List.mem_cons_of_mem _ hq))]
      simp [List.filter_cons, hc]

def keysOf (m : List (Str × List Str)) : List Str := m.map Prod.fst

theorem mem_keys_updAssoc :
    ∀ (m : List (Str × List Str)) (k pr key : Str),
      key ∈ keysOf (updAssoc m k pr) → key ∈ keysOf m ∨ key = k := by
  intro m
  induction m with
  | nil =>
    intro k pr key h
    simp [updAssoc, keysOf] at h
    exact Or.inr h
  | cons f t ih =>
    obtain ⟨k0, v0⟩ := f
    intro k pr key h
    unfold updAssoc at h
    by_cases h0 : k0 = k
    · rw [if_pos h0] at h
      by_cases hpr : pr ∈ v0
      · rw [if_pos hpr] at h; exact Or.inl h
      · rw [if_neg hpr] at h; exact Or.inl h
    · rw [if_neg h0] at h
      rcases List.mem_cons.mp h with h1 | h1
      · exact Or.inl (List.mem_cons.mpr (Or.inl h1))
      · rcases ih k pr key h1 with h2 | h2
        · exact Or.inl (List.mem_cons.mpr (Or.inr h2))
        · exact Or.inr h2

theorem keys_nodup_updAssoc :
    ∀ (m : List (Str × List Str)) (k pr : Str),
      (keysOf m).Nodup → (keysOf (updAssoc m k pr)).Nodup := by
  intro m
  induction m with
  | nil => intro k pr _; simp [updAssoc, keysOf]
  | cons f t ih =>
    obtain ⟨k0, v0⟩ := f
    intro k pr h
    rw [show keysOf ((k0, v0) :: t) = k0 :: keysOf t from rfl, List.nodup_cons] at h
    obtain ⟨h1, h2⟩ := h
    unfold updAssoc
    by_cases h0 : k0 = k
    · by_cases hpr : pr ∈ v0
      · rw [if_pos h0, if_pos hpr]
        exact List.nodup_cons.mpr ⟨h1, h2⟩
      · rw [if_pos h0, if_neg hpr]
        exact List.nodup_cons.mpr ⟨h1, h2⟩
    · rw [if_neg h0]
      refine List.nodup_cons.mpr ⟨?_, ih k pr h2⟩
      intro hmem
      rcases mem_keys_updAssoc t k pr k0 hmem with hm | hm
      · exact h1 hm
      · exact h0 hm

theorem ingFold_keys_nodup (pn : Str) :
    ∀ (ings : List Ingredient) (m : List (Str × List Str)),
      (keysOf m).Nodup →
      (keysOf (ings.foldl (fun m ing => updAssoc m ing.name pn) m)).Nodup := by
  intro ings
  induction ings with
  | nil => intro m h; exact h
  | cons ing t ih =>
    intro m h
    exact ih (updAssoc m ing.name pn) (keys_nodup_updAssoc m ing.name pn h)

theorem buildMap_keys_nodup :
    ∀ (ps : List Product) (m : List (Str × List Str)),
      (keysOf m).Nodup →
      (keysOf (ps.foldl
        (fun m p => p.ingredients.foldl (fun m ing => updAssoc m ing.name p.name) m) m)).Nodup := by
  intro ps
  induction ps with
  | nil => intro m h; exact h
  | cons p t ih =>
    intro m h
    exact ih _ (ingFold_keys_nodup p.name p.ingredients m h)

theorem lookupV_of_mem :
    ∀ (m : List (Str × List Str)), (keysOf m).Nodup →
      ∀ e ∈ m, lookupV m e.1 = some e.2 := by
  intro m
  induction m with
  | nil => intro _ e he; simp at he
  | cons f t ih =>
    obtain ⟨k0, v0⟩ := f
    intro hnd e he
    rw [show keysOf ((k0, v0) :: t) = k0 :: keysOf t from rfl, List.nodup_cons] at hnd
    obtain ⟨h1, h2⟩ := hnd
    rcases List.mem_cons.mp he with rfl | he'
    · simp [lookupV]
    · have hne : k0 ≠ e.1 := by
        intro e0
        exact h1 (e0 ▸ List.mem_map_of_mem Prod.fst he')
      simp only [lookupV, if_neg hne]
      exact ih h2 e he'

/-- Concrete products for the claim's example (A = {x,y}, B = {x},
C = {x,y,z}) and for the duplicate-name counterexample. -/
def compIngredient (n : String) : Ingredient :=
  ⟨str n, str "Unknown", str "", str "safe", [], [], true, true⟩

def prodA : Product :=
  ⟨str "a1", str "A", str "BrandA", str "Food", none, none,
   [compIngredient "x", compIngredient "y"], [], 80, str "B", [], [], 0⟩

def prodB : Product :=
  ⟨str "b1", str "B", str "BrandB", str "Food", none, none,
   [compIngredient "x"], [], 70, str "C", [], [], 0⟩

def prodC : Product :=
  ⟨str "c1", str "C", str "BrandC", str "Food", none, none,
   [compIngredient "x", compIngredient "y", compIngredient "z"], [], 60, str "D", [], [], 0⟩

def sameName1 : Product :=
  ⟨str "1", str "Same", str "b", str "c", none, none,
   [compIngredient "x"], [], 50, str "C", [], [], 0⟩

def sameName2 : Product :=
  ⟨str "2", str "Same", str "b", str "c", none, none,
   [compIngredient "x"], [], 50, str "C", [], [], 0⟩

/-- C8 counterexample: presence is deduplicated by product NAME, so with two
distinct products that share a name, an ingredient contained in all products
still lands in `differingIngredients` — it appears in 2 = len(products)
ingredient lists, violating the claimed strict bound. -/
theorem C8_counterexample :
    ∃ e ∈ (compareProducts [sameName1, sameName2] {}).differingIngredients,
      ¬((([sameName1, sameName2] : List Product).filter
          (fun p => p.ingredients.any (fun i => i.name = e.ingredient))).length <
        ([sameName1, sameName2] : List Product).length) := by
  decide

/-- C8 (amended): when the input products have pairwise-distinct names, every
ingredient name in `differingIngredients` appears in strictly fewer than
`len(products)` of the products' ingredient lists; on the claim's example
(A = {x,y}, B = {x}, C = {x,y,z}) the differing ingredients are exactly
`y` and `z`, and `x` (common to all three) is excluded. -/
theorem C8_differing_excludes_common :
    (∀ (ps : List Product) (prof : UserProfile),
      (ps.map (fun p => p.name)).Nodup →
      ∀ e ∈ (compareProducts ps prof).differingIngredients,
        (ps.filter (fun p => p.ingredients.any (fun i => i.name = e.ingredient))).length <
          ps.length) ∧
    (compareProducts [prodA, prodB, prodC] {}).differingIngredients.map
        (fun e => e.ingredient) = [str "y", str "z"] := by
  constructor
  · intro ps prof hnd e he
    cases ps with
    | nil => simp [compareProducts] at he
    | cons p t =>
      obtain ⟨entry, hentry, hfe⟩ := List.mem_map.mp he
      obtain ⟨hmem, hcondb⟩ := List.mem_filter.mp hentry
      have hcond : entry.2.length < (p :: t).length := of_decide_eq_true hcondb
      have hlook : lookupV (buildIngredientMap (p :: t)) entry.1 = some entry.2 :=
        lookupV_of_mem _ (buildMap_keys_nodup (p :: t) [] (by simp [keysOf])) entry hmem
      have hfold := buildMap_lookup_fold entry.1 (p :: t) []
      rw [show buildIngredientMap (p :: t) =
            (p :: t).foldl
              (fun m p => p.ingredients.foldl (fun m ing => updAssoc m ing.name p.name) m) []
          from rfl] at hlook
      rw [hlook] at hfold
      have hcount := optFold_length entry.1 (p :: t) none hnd
        (by intro q hq v hv; cases hv)
      rw [show (p :: t).foldl (optStep entry.1) (lookupV [] entry.1) =
            (p :: t).foldl (optStep entry.1) none from rfl] at hfold
      rw [← hfold] at hcount
      simp only [vlen] at hcount
      subst hfe
      show ((p :: t).filter
        (fun q => q.ingredients.any (fun i => i.name = entry.1))).length < (p :: t).length
      omega
  · decide

theorem C8_witness :
    (([prodA, prodB, prodC] : List Product).filter
        (fun p => p.ingredients.any (fun i => i.name = str "y"))).length <
      ([prodA, prodB, prodC] : List Product).length :=
  C8_differing_excludes_common.1 [prodA, prodB, prodC] {} (by decide)
    ⟨str "y", [str "A", str "C"], str "safe"⟩ (by decide)

end ConsciousScan
